import Mathlib

/-!
Verification of the `graph-prototype` dataflow runtime against its
natural-language specification.  The relevant C++ code
(`core/include/gnuradio-4.0/scheduler.hpp`, `Settings.hpp`, and the
buffer test-suite `core/test/qa_buffer.cpp`) is shallowly embedded below:
pure fragments become Lean functions over `Nat`/`Int`/`List`, 64-bit
machine arithmetic is made explicit with `% 2^64`, and exceptions become
explicit outcome values.
-/

namespace GraphProto

/-- `work_return_status_t` from `node.hpp` (as used by `scheduler.hpp`). -/
inductive WorkStatus where
  | OK
  | DONE
  | ERROR
  | INSUFFICIENT_INPUT_ITEMS
  | INSUFFICIENT_OUTPUT_ITEMS
deriving DecidableEq, Repr

/-- One node's observable behaviour during a single `work(max)` call, as the
scheduler's `work_once` sees it: the returned status and `performed_work`,
whether the node `is_blocking()`, and the per-port counts that
`available_input_samples` writes into its out-vector. -/
structure NodeObs where
  status : WorkStatus
  performed : Nat
  blocking : Bool
  availInput : List Nat
deriving DecidableEq, Repr

/-- The `work_return_t` record `{ requested_work, performed_work, status }`. -/
structure WorkRet where
  requested : Nat
  performed : Nat
  status : WorkStatus
deriving DecidableEq, Repr

/-- `std::numeric_limits<std::size_t>::max()`, the `requested_work` budget
used by both schedulers' `work_once`. -/
def requestedWorkMax : Nat := 2 ^ 64 - 1

/-- Classification step of `simple::work_once` / `breadth_first::work_once`
for one node that did not return ERROR: `OK` and `INSUFFICIENT_OUTPUT_ITEMS`
mark the pass productive; for a blocking node a positive
`available_input_samples` total also marks it productive
(scheduler.hpp lines 225-234). -/
def nodeProductive (sh : Bool) (n : NodeObs) : Bool :=
  let sh1 := sh || (n.status == WorkStatus.OK || n.status == WorkStatus.INSUFFICIENT_OUTPUT_ITEMS)
  if n.blocking then sh1 || decide (0 < n.availInput.sum) else sh1

/-- Loop body of `simple::work_once` (scheduler.hpp lines 214-237; the
`breadth_first` variant at lines 353-379 is textually identical): iterate the
nodes in order, accumulate `performed_work`, return ERROR immediately when a
node reports ERROR, otherwise classify the node's status. -/
def workOnceGo : List NodeObs → Bool → Nat → WorkRet
  | [], sh, pw => ⟨requestedWorkMax, pw, if sh then WorkStatus.OK else WorkStatus.DONE⟩
  | n :: rest, sh, pw =>
    let pw' := pw + n.performed
    if n.status = WorkStatus.ERROR then
      ⟨requestedWorkMax, pw', WorkStatus.ERROR⟩
    else
      workOnceGo rest (nodeProductive sh n) pw'

/-- `work_once(nodes)` of the `simple` (and `breadth_first`) scheduler. -/
def workOnce (nodes : List NodeObs) : WorkRet :=
  workOnceGo nodes false 0

/-- A node observation counts as "productive" for the pass exactly when its
status is OK or INSUFFICIENT_OUTPUT_ITEMS, or it is a blocking node with a
positive available-input-samples total. -/
def isProductiveObs (n : NodeObs) : Prop :=
  n.status = WorkStatus.OK ∨ n.status = WorkStatus.INSUFFICIENT_OUTPUT_ITEMS ∨
    (n.blocking = true ∧ 0 < n.availInput.sum)

instance (n : NodeObs) : Decidable (isProductiveObs n) := by
  unfold isProductiveObs; infer_instance

lemma nodeProductive_eq (sh : Bool) (n : NodeObs) :
    nodeProductive sh n = (sh || decide (isProductiveObs n)) := by
  rcases n with ⟨st, pw, bl, av⟩
  unfold nodeProductive isProductiveObs
  cases bl <;> cases st <;> simp [Bool.or_assoc, Bool.or_comm, Bool.or_left_comm] <;>
    by_cases h : 0 < av.sum <;> simp [h]

lemma workOnceGo_no_error (nodes : List NodeObs) (sh : Bool) (pw : Nat)
    (hne : ∀ n ∈ nodes, n.status ≠ WorkStatus.ERROR) :
    workOnceGo nodes sh pw =
      ⟨requestedWorkMax, pw + (nodes.map NodeObs.performed).sum,
        if sh || nodes.any (fun n => decide (isProductiveObs n)) then WorkStatus.OK
        else WorkStatus.DONE⟩ := by
  induction nodes generalizing sh pw with
  | nil => simp [workOnceGo]
  | cons n rest ih =>
    have hn : n.status ≠ WorkStatus.ERROR := hne n (by simp)
    have hrest : ∀ m ∈ rest, m.status ≠ WorkStatus.ERROR := fun m hm => hne m (by simp [hm])
    simp only [workOnceGo, if_neg hn]
    rw [ih _ _ hrest, nodeProductive_eq]
    simp [Nat.add_assoc, List.any_cons, Bool.or_assoc]

lemma workOnceGo_first_error (pre : List NodeObs) (e : NodeObs) (rest : List NodeObs)
    (sh : Bool) (pw : Nat)
    (hpre : ∀ n ∈ pre, n.status ≠ WorkStatus.ERROR) (he : e.status = WorkStatus.ERROR) :
    workOnceGo (pre ++ e :: rest) sh pw =
      ⟨requestedWorkMax, pw + (pre.map NodeObs.performed).sum + e.performed,
        WorkStatus.ERROR⟩ := by
  induction pre generalizing sh pw with
  | nil => simp [workOnceGo, he]
  | cons n ns ih =>
    have hn : n.status ≠ WorkStatus.ERROR := hpre n (by simp)
    have hns : ∀ m ∈ ns, m.status ≠ WorkStatus.ERROR := fun m hm => hpre m (by simp [hm])
    simp only [List.cons_append, workOnceGo, if_neg hn, List.append_eq]
    rw [ih _ _ hns]
    simp [Nat.add_assoc]

/-- C4.  `simple::work_once(nodes)` calls each node's `work(max budget)` in
order and classifies the results: with no erroring node the returned status is
OK iff some node was productive (status OK or INSUFFICIENT_OUTPUT_ITEMS, or a
blocking node with positive available input samples) and DONE otherwise, with
`performed_work` the sum of the nodes' `performed_work`; when a node returns
ERROR the pass returns immediately with status ERROR (nodes after it are not
consulted and contribute nothing to `performed_work`). -/
theorem simple_work_once_classifies :
    (∀ nodes : List NodeObs, (∀ n ∈ nodes, n.status ≠ WorkStatus.ERROR) →
      workOnce nodes =
        ⟨requestedWorkMax, (nodes.map NodeObs.performed).sum,
          if nodes.any (fun n => decide (isProductiveObs n)) then WorkStatus.OK
          else WorkStatus.DONE⟩) ∧
    (∀ (pre : List NodeObs) (e : NodeObs) (rest : List NodeObs),
      (∀ n ∈ pre, n.status ≠ WorkStatus.ERROR) → e.status = WorkStatus.ERROR →
      workOnce (pre ++ e :: rest) =
        ⟨requestedWorkMax, (pre.map NodeObs.performed).sum + e.performed,
          WorkStatus.ERROR⟩) := by
  constructor
  · intro nodes hne
    unfold workOnce
    rw [workOnceGo_no_error nodes false 0 hne]
    simp
  · intro pre e rest hpre he
    unfold workOnce
    rw [workOnceGo_first_error pre e rest false 0 hpre he]
    simp

/-- Witness for C4 at concrete inputs: a productive OK node plus an idle DONE
node yield status OK with summed work, and an ERROR node stops the pass. -/
theorem simple_work_once_classifies_witness :
    workOnce [⟨WorkStatus.OK, 3, false, []⟩, ⟨WorkStatus.DONE, 2, false, []⟩] =
        ⟨requestedWorkMax, 5, WorkStatus.OK⟩ ∧
    workOnce [⟨WorkStatus.DONE, 1, false, []⟩, ⟨WorkStatus.ERROR, 4, false, []⟩,
        ⟨WorkStatus.OK, 100, false, []⟩] = ⟨requestedWorkMax, 5, WorkStatus.ERROR⟩ := by
  constructor
  · have h := simple_work_once_classifies.1
      [⟨WorkStatus.OK, 3, false, []⟩, ⟨WorkStatus.DONE, 2, false, []⟩] (by decide)
    rw [h]; decide
  · have h := simple_work_once_classifies.2
      [⟨WorkStatus.DONE, 1, false, []⟩] ⟨WorkStatus.ERROR, 4, false, []⟩
      [⟨WorkStatus.OK, 100, false, []⟩] (by decide) (by decide)
    simpa using h

/-- `SchedulerState` from scheduler.hpp line 18. -/
inductive SchedState where
  | IDLE
  | INITIALISED
  | RUNNING
  | REQUESTED_STOP
  | REQUESTED_PAUSE
  | STOPPED
  | PAUSED
  | SHUTTING_DOWN
  | ERROR
deriving DecidableEq, Repr

/-- The single-threaded execution loop of `simple::start` (scheduler.hpp
lines 264-275): a do/while that repeats `work_once` over the node list while
it returns OK, then sets `_state` to ERROR on an ERROR result and to STOPPED
otherwise.  Nodes are given as pass-indexed observation streams; `fuel`
bounds the number of passes (the physical loop has no bound; RUNNING is
returned when fuel is exhausted mid-loop). -/
def simpleRunLoop (nodes : List (Nat → NodeObs)) : Nat → Nat → SchedState
  | 0, _ => SchedState.RUNNING
  | fuel + 1, k =>
    let result := workOnce (nodes.map (fun f => f k))
    if result.status = WorkStatus.OK then simpleRunLoop nodes fuel (k + 1)
    else if result.status = WorkStatus.ERROR then SchedState.ERROR
    else SchedState.STOPPED

/-- The single-threaded execution loop of `breadth_first::start`
(scheduler.hpp lines 403-413): `while ((result = work_once(nodelist)).status
== OK) { if (result.status == ERROR) { _state = ERROR; return; } }` followed
by `_state = STOPPED`.  The ERROR check sits inside the loop body, which is
entered only when the status is OK, and is embedded here exactly as written. -/
def bfRunLoop (nodes : List (Nat → NodeObs)) : Nat → Nat → SchedState
  | 0, _ => SchedState.RUNNING
  | fuel + 1, k =>
    let result := workOnce (nodes.map (fun f => f k))
    if result.status = WorkStatus.OK then
      (if result.status = WorkStatus.ERROR then SchedState.ERROR
       else bfRunLoop nodes fuel (k + 1))
    else SchedState.STOPPED

/-- A node whose `work` immediately reports ERROR on every pass. -/
def errorNode : Nat → NodeObs := fun _ => ⟨WorkStatus.ERROR, 0, false, []⟩

/-- C2 (failing-input evaluation).  With a single node whose `work` returns
ERROR, `work_once` returns ERROR on the first pass; `simple::start`
(single-threaded) then sets the scheduler state to ERROR as the spec demands,
but `breadth_first::start` sets it to STOPPED: its ERROR branch is inside a
loop body only entered on OK, so it is unreachable and the post-loop
assignment `_state = STOPPED` runs instead. -/
theorem breadth_first_error_ends_stopped :
    workOnce [errorNode 0] = ⟨requestedWorkMax, 0, WorkStatus.ERROR⟩ ∧
    simpleRunLoop [errorNode] 2 0 = SchedState.ERROR ∧
    bfRunLoop [errorNode] 2 0 = SchedState.STOPPED ∧
    bfRunLoop [errorNode] 2 0 ≠ SchedState.ERROR := by
  refine ⟨by decide, by decide, by decide, by decide⟩

/-- `connection_result_t`; the spec (§4.5) lists the failure kinds a
connection definition may produce. -/
inductive ConnResult where
  | SUCCESS
  | PortMismatch
  | AlreadyConnected
  | ResourceExhausted
deriving DecidableEq, Repr

/-- Modelled from the spec: `graph.hpp` (the `gr::graph` class with its
`connection_definitions()` and resolved-edge list) is not under src/.  Per
§4.5 a pending connection definition is a lazy closure which, when executed
against the graph, either establishes one buffer connection and records the
resolved edge (returning SUCCESS) or fails with `PortMismatch`,
`AlreadyConnected` or `ResourceExhausted` leaving that edge unconnected.  A
definition is modelled by the edge it would resolve and the result its
execution produces. -/
structure ConnDef where
  edge : Nat
  result : ConnResult
deriving DecidableEq, Repr

/-- Graph state as `scheduler_base::init` sees it: the pending connection
definitions and the list of already-resolved (buffer-connected) edges. -/
structure GraphModel where
  connectionDefinitions : List ConnDef
  resolvedEdges : List Nat
deriving DecidableEq, Repr

/-- The `std::all_of(connection_definitions, ..., d(graph) == SUCCESS)` call
in `scheduler_base::init` (scheduler.hpp lines 97-98): definitions execute in
order against the graph, each successful one appending its resolved edge;
`all_of` short-circuits at the first failure, leaving later definitions
unexecuted.  Returns the resolved-edge list after execution and whether all
executed definitions succeeded. -/
def runAllOf : List ConnDef → List Nat → List Nat × Bool
  | [], res => (res, true)
  | d :: ds, res =>
    if d.result = ConnResult.SUCCESS then runAllOf ds (res ++ [d.edge])
    else (res, false)

/-- Scheduler state paired with its graph, for `scheduler_base::init`. -/
structure SchedulerModel where
  state : SchedState
  graph : GraphModel
deriving DecidableEq, Repr

/-- `scheduler_base::init` (scheduler.hpp lines 91-105): a no-op unless the
state is IDLE; otherwise run every connection definition via `all_of`; on
overall success clear the definitions and become INITIALISED, else become
ERROR (definitions are not cleared, and edges resolved before the failure
remain resolved). -/
def schedulerInit (s : SchedulerModel) : SchedulerModel :=
  if s.state ≠ SchedState.IDLE then s
  else
    let r := runAllOf s.graph.connectionDefinitions s.graph.resolvedEdges
    if r.2 then
      ⟨SchedState.INITIALISED, ⟨[], r.1⟩⟩
    else
      ⟨SchedState.ERROR, ⟨s.graph.connectionDefinitions, r.1⟩⟩

/-- C3 (counterexample).  Two pending definitions, the first succeeding (for
edge 1) and the second failing with PortMismatch: `init` from IDLE sets the
state to ERROR, but the first definition has already established its buffer
connection — the resolved-edge list has grown from `[]` to `[1]`, so a
partial graph *is* left connected, contradicting the claim. -/
theorem scheduler_init_left_connected_counterexample :
    (schedulerInit ⟨SchedState.IDLE,
        ⟨[⟨1, ConnResult.SUCCESS⟩, ⟨2, ConnResult.PortMismatch⟩], []⟩⟩).state =
      SchedState.ERROR ∧
    (schedulerInit ⟨SchedState.IDLE,
        ⟨[⟨1, ConnResult.SUCCESS⟩, ⟨2, ConnResult.PortMismatch⟩], []⟩⟩).graph.resolvedEdges =
      [1] := by
  decide

lemma runAllOf_first_failure (pre : List ConnDef) (bad : ConnDef) (rest : List ConnDef)
    (res : List Nat) (hpre : ∀ d ∈ pre, d.result = ConnResult.SUCCESS)
    (hbad : bad.result ≠ ConnResult.SUCCESS) :
    runAllOf (pre ++ bad :: rest) res = (res ++ pre.map ConnDef.edge, false) := by
  induction pre generalizing res with
  | nil => simp [runAllOf, hbad]
  | cons d ds ih =>
    have hd : d.result = ConnResult.SUCCESS := hpre d (by simp)
    have hds : ∀ x ∈ ds, x.result = ConnResult.SUCCESS := fun x hx => hpre x (by simp [hx])
    simp only [List.cons_append, runAllOf, if_pos hd, List.append_eq]
    rw [ih _ hds]
    simp

/-- C3 (amended).  If `scheduler_base::init` is called in state IDLE and some
connection definition fails, the state becomes ERROR and the definitions
after the failing one are not executed; however, every definition executed
before the failing one *has* established its buffer connection: the graph's
resolved edges are extended by exactly the edges of the successful
definitions preceding the first failure. -/
theorem scheduler_init_failure_keeps_earlier_connections
    (pre : List ConnDef) (bad : ConnDef) (rest : List ConnDef) (res : List Nat)
    (hpre : ∀ d ∈ pre, d.result = ConnResult.SUCCESS)
    (hbad : bad.result ≠ ConnResult.SUCCESS) :
    schedulerInit ⟨SchedState.IDLE, ⟨pre ++ bad :: rest, res⟩⟩ =
      ⟨SchedState.ERROR, ⟨pre ++ bad :: rest, res ++ pre.map ConnDef.edge⟩⟩ := by
  unfold schedulerInit
  rw [if_neg (by simp)]
  simp only [runAllOf_first_failure pre bad rest res hpre hbad]
  rfl

/-- Witness for C3's amended theorem at a concrete input. -/
theorem scheduler_init_failure_keeps_earlier_connections_witness :
    schedulerInit ⟨SchedState.IDLE,
        ⟨[⟨7, ConnResult.SUCCESS⟩, ⟨8, ConnResult.AlreadyConnected⟩, ⟨9, ConnResult.SUCCESS⟩],
          [3]⟩⟩ =
      ⟨SchedState.ERROR,
        ⟨[⟨7, ConnResult.SUCCESS⟩, ⟨8, ConnResult.AlreadyConnected⟩, ⟨9, ConnResult.SUCCESS⟩],
          [3, 7]⟩⟩ := by
  have h := scheduler_init_failure_keeps_earlier_connections
    [⟨7, ConnResult.SUCCESS⟩] ⟨8, ConnResult.AlreadyConnected⟩ [⟨9, ConnResult.SUCCESS⟩]
    [3] (by decide) (by decide)
  simpa using h

/-- The progress-count field of the 64-bit progress word:
`(progress_local >> 32) & ((1 << 32) - 1)` (scheduler.hpp lines 155, 164). -/
def wordPC (w : Nat) : Nat := (w / 2 ^ 32) % 2 ^ 32

/-- The done-count field of the progress word:
`progress_local & ((1 << 32) - 1)` (scheduler.hpp lines 156, 165). -/
def wordDone (w : Nat) : Nat := w % 2 ^ 32

/-- The per-iteration state of one `scheduler_base::pool_worker`
(scheduler.hpp lines 141-180): the local `progress_count` and `done`
variables and the shared 64-bit `_progress` word (single-worker view: each
CAS is taken at its success, so the loop collapses to one update; peer
interference is captured by quantifying over the word the worker reads). -/
structure WorkerState where
  pcLocal : Nat
  done : Nat
  word : Nat
deriving DecidableEq, Repr

/-- One iteration body of `pool_worker` after the `work()` call, given
whether `work().status == OK` (`something_happened`): a productive worker
CAS-writes `(progress_count + 1) << 32` (uint64 arithmetic); an unproductive
worker whose observed `progress_count` still equals its local copy writes
`(progress_count << 32) + done + 1`; if a peer advanced `progress_count` it
rewrites the word unchanged.  The local `progress_count`/`done` copies are
refreshed from the word read by the CAS (its pre-update value). -/
def workerStep (productive : Bool) (s : WorkerState) : WorkerState :=
  let pc := wordPC s.word
  let dn := wordDone s.word
  match productive with
  | true => ⟨pc, dn, ((pc + 1) * 2 ^ 32) % 2 ^ 64⟩
  | false =>
    if pc = s.pcLocal then
      ⟨pc, dn, (pc * 2 ^ 32 + dn + 1) % 2 ^ 64⟩
    else
      ⟨pc, dn, (pc * 2 ^ 32 + dn) % 2 ^ 64⟩

/-- The `while (done < n_batches && !_stop_requested)` worker loop, fed the
stream of `work()` productivity outcomes for its successive iterations. -/
def workerRun (nBatches : Nat) (stopRequested : Bool) :
    List Bool → WorkerState → WorkerState
  | [], s => s
  | b :: rest, s =>
    if s.done < nBatches ∧ stopRequested = false then
      workerRun nBatches stopRequested rest (workerStep b s)
    else s

/-- C1.  The progress-word protocol of `scheduler_base::pool_worker`:
(i) a worker that observed productive work CAS-updates the word to
`(progress_count + 1) << 32` — progress_count incremented, done_count reset
to 0; (ii) a worker that observed no productive work and no peer advance of
progress_count increments done_count by 1, leaving progress_count unchanged;
(iii) a worker that observed no productive work but a peer advance leaves the
word unchanged; (iv) the loop terminates once the worker's observed
done_count equals `n_batches`: no further iteration executes. -/
theorem pool_worker_progress_word_protocol :
    (∀ s : WorkerState,
      (workerStep true s).word = ((wordPC s.word + 1) * 2 ^ 32) % 2 ^ 64 ∧
      wordDone (workerStep true s).word = 0 ∧
      (wordPC s.word + 1 < 2 ^ 32 →
        wordPC (workerStep true s).word = wordPC s.word + 1)) ∧
    (∀ s : WorkerState, wordPC s.word = s.pcLocal → s.word < 2 ^ 64 →
      wordDone s.word + 1 < 2 ^ 32 →
      (workerStep false s).word = s.word + 1 ∧
      wordDone (workerStep false s).word = wordDone s.word + 1 ∧
      wordPC (workerStep false s).word = wordPC s.word) ∧
    (∀ s : WorkerState, wordPC s.word ≠ s.pcLocal → s.word < 2 ^ 64 →
      (workerStep false s).word = s.word) ∧
    (∀ (nBatches : Nat) (stop : Bool) (l : List Bool) (s : WorkerState),
      s.done = nBatches → workerRun nBatches stop l s = s) := by
  have e32 : (2 : Nat) ^ 32 = 4294967296 := by norm_num
  have e64 : (2 : Nat) ^ 64 = 18446744073709551616 := by norm_num
  refine ⟨?_, ?_, ?_, ?_⟩
  · rintro ⟨pcl, dn0, w⟩
    refine ⟨rfl, ?_, ?_⟩
    · show (((wordPC w + 1) * 2 ^ 32) % 2 ^ 64) % 2 ^ 32 = 0
      simp only [wordPC, e32, e64]
      omega
    · intro hlt
      show (((wordPC w + 1) * 2 ^ 32) % 2 ^ 64) / 2 ^ 32 % 2 ^ 32 = wordPC w + 1
      simp only [wordPC, e32, e64] at hlt ⊢
      omega
  · rintro ⟨pcl, dn0, w⟩ hpc hw hdn
    simp only [wordPC, wordDone, e32, e64] at hpc hw hdn
    simp only [workerStep, wordPC, wordDone, e32, e64]
    rw [if_pos hpc]
    dsimp only
    refine ⟨by omega, by omega, by omega⟩
  · rintro ⟨pcl, dn0, w⟩ hpc hw
    simp only [wordPC, wordDone, e32, e64] at hpc hw
    simp only [workerStep, wordPC, wordDone, e32, e64]
    rw [if_neg hpc]
    dsimp only
    omega
  · intro nBatches stop l s hs
    cases l with
    | nil => rfl
    | cons b rest =>
      unfold workerRun
      rw [if_neg (by omega)]

/-- Witness for C1 at a concrete state: word `(3 << 32) + 1` with local
progress count 3 — productive work writes `4 << 32`; idle work writes
done = 2; with local count 2 (peer advanced) the word is left unchanged;
and a worker whose done count equals `n_batches = 2` stops iterating. -/
theorem pool_worker_progress_word_protocol_witness :
    (workerStep true ⟨3, 1, 3 * 2 ^ 32 + 1⟩).word = 4 * 2 ^ 32 ∧
    (workerStep false ⟨3, 1, 3 * 2 ^ 32 + 1⟩).word = 3 * 2 ^ 32 + 2 ∧
    (workerStep false ⟨2, 1, 3 * 2 ^ 32 + 1⟩).word = 3 * 2 ^ 32 + 1 ∧
    workerRun 2 false [true, false] ⟨3, 2, 3 * 2 ^ 32 + 2⟩ = ⟨3, 2, 3 * 2 ^ 32 + 2⟩ := by
  have h := pool_worker_progress_word_protocol
  refine ⟨?_, ?_, ?_, ?_⟩
  · have h1 := (h.1 ⟨3, 1, 3 * 2 ^ 32 + 1⟩).1
    rw [h1]
    norm_num [wordPC]
  · have h2 := (h.2.1 ⟨3, 1, 3 * 2 ^ 32 + 1⟩ (by norm_num [wordPC]) (by norm_num)
      (by norm_num [wordDone])).1
    rw [h2]
  · exact h.2.2.1 ⟨2, 1, 3 * 2 ^ 32 + 1⟩ (by norm_num [wordPC]) (by norm_num)
  · exact h.2.2.2 2 false [true, false] ⟨3, 2, 3 * 2 ^ 32 + 2⟩ rfl

/-- Adjacency of a node in `breadth_first::init` (scheduler.hpp lines
304-312): `_adjacency_list[e._src_node].push_back(e._dst_node)` for each
edge, i.e. the destinations of the edges leaving `x`, in edge order.
Nodes are identified by natural numbers (standing for `node_model*`). -/
def adjOf (edges : List (Nat × Nat)) (x : Nat) : List Nat :=
  (edges.filter (fun e => e.1 = x)).map Prod.snd

/-- All edge sources, in edge order (`_source_nodes` before filtering). -/
def srcList (edges : List (Nat × Nat)) : List Nat := edges.map Prod.fst

/-- All edge destinations (`node_reached`). -/
def dstList (edges : List (Nat × Nat)) : List Nat := edges.map Prod.snd

/-- Every node incident to some edge (sources then destinations). -/
def nodesOf (edges : List (Nat × Nat)) : List Nat := srcList edges ++ dstList edges

/-- The source nodes of `breadth_first::init` (scheduler.hpp line 313):
edge sources with every node that is also some edge's destination removed
(`remove_if(..., node_reached.contains(...))`).  Duplicates of a repeated
source survive here and are collapsed at queue-insertion time. -/
def sourceNodes (edges : List (Nat × Nat)) : List Nat :=
  (srcList edges).filter (fun s => !(decide (s ∈ dstList edges)))

/-- The guarded enqueue pattern of `breadth_first::init` (lines 318-323 for
the sources, 330-335 for the inner loop): walk `xs` in order and, for each
element not yet in the `reached` set, append it to both the queue and the
set. -/
def enqueueFresh : List Nat → List Nat → List Nat → List Nat × List Nat
  | [], queue, reached => (queue, reached)
  | x :: xs, queue, reached =>
    if x ∈ reached then enqueueFresh xs queue reached
    else enqueueFresh xs (queue ++ [x]) (reached ++ [x])

/-- The `while (!queue.empty())` traversal of `breadth_first::init` (lines
325-337): pop the front node, append it to `_nodelist`, and enqueue its
unvisited successors.  `fuel` bounds the number of iterations; the physical
loop has none, and `bfsFuel` below is proven sufficient. -/
def bfsLoop (edges : List (Nat × Nat)) : Nat → List Nat → List Nat → List Nat → List Nat
  | 0, _, _, acc => acc
  | _ + 1, [], _, acc => acc
  | fuel + 1, x :: qs, reached, acc =>
    let p := enqueueFresh (adjOf edges x) qs reached
    bfsLoop edges fuel p.1 p.2 (acc ++ [x])

/-- An iteration bound sufficient for the traversal to drain its queue:
every node is enqueued at most once, and at most `2 |edges|` distinct nodes
exist. -/
def bfsFuel (edges : List (Nat × Nat)) : Nat := 2 * edges.length + 1

/-- The `_nodelist` computed by `breadth_first::init` (lines 303-337). -/
def nodelistOf (edges : List (Nat × Nat)) : List Nat :=
  let p := enqueueFresh (sourceNodes edges) [] []
  bfsLoop edges (bfsFuel edges) p.1 p.2 []

/-- The job lists generated by `breadth_first::init` in multi-threaded mode
(scheduler.hpp lines 339-350): `n_batches = min(maxThreads, |nodelist|)`
round-robin job sets, job `i` holding the nodes at indices `i, i+n, ...`. -/
def everyNthAux : Nat → List Nat → Nat → List Nat
  | 0, _, _ => []
  | _ + 1, [], _ => []
  | fuel + 1, x :: xs, nb => x :: everyNthAux fuel (xs.drop (nb - 1)) nb

def jobListsOf (nodelist : List Nat) (maxThreads : Nat) : List (List Nat) :=
  let nBatches := min maxThreads nodelist.length
  (List.range nBatches).map (fun i => everyNthAux nodelist.length (nodelist.drop i) nBatches)

/-- Reachability from the in-degree-zero source nodes along graph edges:
exactly the blocks the breadth-first traversal is meant to visit. -/
inductive ReachSrc (edges : List (Nat × Nat)) : Nat → Prop
  | source {x : Nat} : x ∈ sourceNodes edges → ReachSrc edges x
  | step {a b : Nat} : ReachSrc edges a → (a, b) ∈ edges → ReachSrc edges b

lemma mem_adjOf {edges : List (Nat × Nat)} {x y : Nat} :
    y ∈ adjOf edges x ↔ (x, y) ∈ edges := by
  unfold adjOf
  simp only [List.mem_map, List.mem_filter, decide_eq_true_eq]
  constructor
  · rintro ⟨e, ⟨he, hx⟩, hy⟩
    rcases e with ⟨a, b⟩
    simp only at hx hy
    rw [← hx, ← hy] at *
    exact he
  · intro h
    exact ⟨(x, y), ⟨h, rfl⟩, rfl⟩

lemma enqueueFresh_spec (xs : List Nat) :
    ∀ (queue reached : List Nat), ∃ news : List Nat,
      enqueueFresh xs queue reached = (queue ++ news, reached ++ news) ∧
      news.Nodup ∧
      (∀ y ∈ news, y ∈ xs ∧ y ∉ reached) ∧
      (∀ y, y ∈ reached ++ news ↔ y ∈ reached ∨ y ∈ xs) := by
  induction xs with
  | nil =>
    intro queue reached
    exact ⟨[], by simp [enqueueFresh]⟩
  | cons x xs ih =>
    intro queue reached
    by_cases hx : x ∈ reached
    · obtain ⟨news, heq, hnd, hmem, hiff⟩ := ih queue reached
      refine ⟨news, by simpa [enqueueFresh, hx] using heq, hnd, ?_, ?_⟩
      · exact fun y hy => ⟨List.mem_cons_of_mem _ (hmem y hy).1, (hmem y hy).2⟩
      · intro y
        rw [hiff y]
        constructor
        · rintro (h | h)
          · exact Or.inl h
          · exact Or.inr (List.mem_cons_of_mem _ h)
        · rintro (h | h)
          · exact Or.inl h
          · rcases List.mem_cons.mp h with rfl | h
            · exact Or.inl hx
            · exact Or.inr h
    · obtain ⟨news, heq, hnd, hmem, hiff⟩ := ih (queue ++ [x]) (reached ++ [x])
      refine ⟨x :: news, ?_, ?_, ?_, ?_⟩
      · simpa [enqueueFresh, hx, List.append_assoc] using heq
      · refine List.nodup_cons.mpr ⟨fun hxn => ?_, hnd⟩
        exact (hmem x hxn).2 (by simp)
      · rintro y hy
        rcases List.mem_cons.mp hy with rfl | hy
        · exact ⟨by simp, hx⟩
        · obtain ⟨h1, h2⟩ := hmem y hy
          exact ⟨List.mem_cons_of_mem _ h1, fun hc => h2 (by simp [hc])⟩
      · intro y
        have := hiff y
        constructor
        · intro h
          have h' : y ∈ reached ++ [x] ++ news := by
            simpa [List.append_assoc] using h
          rcases (this.mp h') with h'' | h''
          · rcases List.mem_append.mp h'' with h3 | h3
            · exact Or.inl h3
            · simp at h3
              exact Or.inr (by simp [h3])
          · exact Or.inr (List.mem_cons_of_mem _ h'')
        · intro h
          have : y ∈ reached ++ [x] ++ news → y ∈ reached ++ x :: news := by
            intro hh
            simpa [List.append_assoc] using hh
          rcases h with h | h
          · exact this ((hiff y).mpr (Or.inl (by simp [h])))
          · rcases List.mem_cons.mp h with rfl | h
            · exact this ((hiff y).mpr (Or.inl (by simp)))
            · exact this ((hiff y).mpr (Or.inr h))

lemma bfsLoop_nodup (edges : List (Nat × Nat)) :
    ∀ (fuel : Nat) (queue reached acc : List Nat),
      (acc ++ queue).Nodup → (∀ y ∈ acc ++ queue, y ∈ reached) →
      (bfsLoop edges fuel queue reached acc).Nodup := by
  intro fuel
  induction fuel with
  | zero =>
    intro queue reached acc hnd _
    exact hnd.sublist (List.sublist_append_left acc queue)
  | succ fuel ih =>
    intro queue reached acc hnd hsub
    cases queue with
    | nil =>
      exact hnd.sublist (List.sublist_append_left acc [])
    | cons x qs =>
      obtain ⟨news, heq, hnewsnd, hnews, hiff⟩ := enqueueFresh_spec (adjOf edges x) qs reached
      show (bfsLoop edges fuel (enqueueFresh (adjOf edges x) qs reached).1
        (enqueueFresh (adjOf edges x) qs reached).2 (acc ++ [x])).Nodup
      rw [heq]
      apply ih
      · have hre : acc ++ [x] ++ (qs ++ news) = (acc ++ x :: qs) ++ news := by
          simp [List.append_assoc]
        rw [hre, List.nodup_append]
        refine ⟨hnd, hnewsnd, ?_⟩
        intro y hy hyn
        exact (hnews y hyn).2 (hsub y hy)
      · intro y hy
        have hre : acc ++ [x] ++ (qs ++ news) = (acc ++ x :: qs) ++ news := by
          simp [List.append_assoc]
        rw [hre] at hy
        rcases List.mem_append.mp hy with h | h
        · exact List.mem_append.mpr (Or.inl (hsub y h))
        · exact List.mem_append.mpr (Or.inr h)

lemma bfsLoop_sound (edges : List (Nat × Nat)) :
    ∀ (fuel : Nat) (queue reached acc : List Nat),
      (∀ y ∈ reached, ReachSrc edges y) → (∀ y ∈ queue, y ∈ reached) →
      (∀ y ∈ acc, ReachSrc edges y) →
      ∀ z ∈ bfsLoop edges fuel queue reached acc, ReachSrc edges z := by
  intro fuel
  induction fuel with
  | zero =>
    intro queue reached acc _ _ hacc z hz
    exact hacc z hz
  | succ fuel ih =>
    intro queue reached acc hreach hq hacc z hz
    cases queue with
    | nil => exact hacc z hz
    | cons x qs =>
      obtain ⟨news, heq, _, hnews, hiff⟩ := enqueueFresh_spec (adjOf edges x) qs reached
      rw [show bfsLoop edges (fuel + 1) (x :: qs) reached acc =
        bfsLoop edges fuel (enqueueFresh (adjOf edges x) qs reached).1
          (enqueueFresh (adjOf edges x) qs reached).2 (acc ++ [x]) from rfl, heq] at hz
      have hxr : ReachSrc edges x := hreach x (hq x (by simp))
      have hreach' : ∀ y ∈ reached ++ news, ReachSrc edges y := by
        intro y hy
        rcases List.mem_append.mp hy with h | h
        · exact hreach y h
        · exact ReachSrc.step hxr (mem_adjOf.mp (hnews y h).1)
      refine ih (qs ++ news) (reached ++ news) (acc ++ [x]) hreach' ?_ ?_ z hz
      · intro y hy
        rcases List.mem_append.mp hy with h | h
        · exact List.mem_append.mpr (Or.inl (hq y (by simp [h])))
        · exact List.mem_append.mpr (Or.inr h)
      · intro y hy
        rcases List.mem_append.mp hy with h | h
        · exact hacc y h
        · simp at h
          rw [h]
          exact hxr

/-- Number of edge-incident nodes not yet in the reached set; the BFS
termination measure is `queue.length + unreachedCount`. -/
def unreachedCount (u reached : List Nat) : Nat :=
  (u.toFinset \ reached.toFinset).card

lemma unreachedCount_append (u reached news : List Nat) (hnd : news.Nodup)
    (hin : ∀ y ∈ news, y ∈ u) (hfresh : ∀ y ∈ news, y ∉ reached) :
    unreachedCount u (reached ++ news) + news.length = unreachedCount u reached := by
  unfold unreachedCount
  have hsub : news.toFinset ⊆ u.toFinset \ reached.toFinset := by
    intro y hy
    rw [List.mem_toFinset] at hy
    rw [Finset.mem_sdiff, List.mem_toFinset, List.mem_toFinset]
    exact ⟨hin y hy, hfresh y hy⟩
  have hset : u.toFinset \ (reached ++ news).toFinset =
      (u.toFinset \ reached.toFinset) \ news.toFinset := by
    ext y
    simp [Finset.mem_sdiff, List.mem_toFinset, and_assoc, not_or]
  rw [hset, Finset.card_sdiff hsub, List.toFinset_card_of_nodup hnd]
  have := Finset.card_le_card hsub
  rw [List.toFinset_card_of_nodup hnd] at this
  omega

lemma bfsLoop_complete (edges : List (Nat × Nat)) :
    ∀ (fuel : Nat) (queue reached acc : List Nat),
      queue.length + unreachedCount (nodesOf edges) reached ≤ fuel →
      (∀ y ∈ queue, y ∈ reached) →
      (∀ y ∈ reached, y ∈ acc ∨ y ∈ queue) →
      (∀ a b, (a, b) ∈ edges → a ∈ acc → b ∈ reached) →
      (∀ y ∈ reached, y ∈ bfsLoop edges fuel queue reached acc) ∧
      (∀ a b, (a, b) ∈ edges → a ∈ bfsLoop edges fuel queue reached acc →
        b ∈ bfsLoop edges fuel queue reached acc) := by
  intro fuel
  induction fuel with
  | zero =>
    intro queue reached acc hfuel hq hr hcl
    have hqnil : queue = [] := List.eq_nil_of_length_eq_zero (by omega)
    subst hqnil
    have hracc : ∀ y ∈ reached, y ∈ acc := by
      intro y hy
      rcases hr y hy with h | h
      · exact h
      · simp at h
    refine ⟨hracc, fun a b hab ha => hracc b (hcl a b hab ha)⟩
  | succ fuel ih =>
    intro queue reached acc hfuel hq hr hcl
    cases queue with
    | nil =>
      have hracc : ∀ y ∈ reached, y ∈ acc := by
        intro y hy
        rcases hr y hy with h | h
        · exact h
        · simp at h
      exact ⟨hracc, fun a b hab ha => hracc b (hcl a b hab ha)⟩
    | cons x qs =>
      obtain ⟨news, heq, hnewsnd, hnews, hiff⟩ := enqueueFresh_spec (adjOf edges x) qs reached
      have hstep : bfsLoop edges (fuel + 1) (x :: qs) reached acc =
          bfsLoop edges fuel (qs ++ news) (reached ++ news) (acc ++ [x]) := by
        show bfsLoop edges fuel (enqueueFresh (adjOf edges x) qs reached).1
          (enqueueFresh (adjOf edges x) qs reached).2 (acc ++ [x]) =
          bfsLoop edges fuel (qs ++ news) (reached ++ news) (acc ++ [x])
        rw [heq]
      have hnewsU : ∀ y ∈ news, y ∈ nodesOf edges := by
        intro y hy
        have : (x, y) ∈ edges := mem_adjOf.mp (hnews y hy).1
        unfold nodesOf dstList
        refine List.mem_append.mpr (Or.inr ?_)
        exact List.mem_map.mpr ⟨(x, y), this, rfl⟩
      have hmeasure : (qs ++ news).length + unreachedCount (nodesOf edges) (reached ++ news) ≤ fuel := by
        have hcnt := unreachedCount_append (nodesOf edges) reached news hnewsnd hnewsU
          (fun y hy => (hnews y hy).2)
        simp only [List.length_append, List.length_cons] at hfuel ⊢
        omega
      have hq' : ∀ y ∈ qs ++ news, y ∈ reached ++ news := by
        intro y hy
        rcases List.mem_append.mp hy with h | h
        · exact List.mem_append.mpr (Or.inl (hq y (by simp [h])))
        · exact List.mem_append.mpr (Or.inr h)
      have hr' : ∀ y ∈ reached ++ news, y ∈ acc ++ [x] ∨ y ∈ qs ++ news := by
        intro y hy
        rcases List.mem_append.mp hy with h | h
        · rcases hr y h with h2 | h2
          · exact Or.inl (List.mem_append.mpr (Or.inl h2))
          · rcases List.mem_cons.mp h2 with rfl | h3
            · exact Or.inl (by simp)
            · exact Or.inr (List.mem_append.mpr (Or.inl h3))
        · exact Or.inr (List.mem_append.mpr (Or.inr h))
      have hcl' : ∀ a b, (a, b) ∈ edges → a ∈ acc ++ [x] → b ∈ reached ++ news := by
        intro a b hab ha
        rcases List.mem_append.mp ha with h | h
        · exact List.mem_append.mpr (Or.inl (hcl a b hab h))
        · simp at h
          subst h
          exact (hiff b).mpr (Or.inr (mem_adjOf.mpr hab))
      obtain ⟨hres1, hres2⟩ := ih (qs ++ news) (reached ++ news) (acc ++ [x]) hmeasure hq' hr' hcl'
      rw [hstep]
      refine ⟨?_, hres2⟩
      intro y hy
      exact hres1 y (List.mem_append.mpr (Or.inl hy))

lemma nodelistOf_setup (edges : List (Nat × Nat)) :
    ∃ news : List Nat,
      nodelistOf edges = bfsLoop edges (bfsFuel edges) news news [] ∧
      news.Nodup ∧ (∀ y, y ∈ news ↔ y ∈ sourceNodes edges) := by
  obtain ⟨news, heq, hnd, hmem, hiff⟩ := enqueueFresh_spec (sourceNodes edges) [] []
  refine ⟨news, ?_, hnd, ?_⟩
  · show bfsLoop edges (bfsFuel edges) (enqueueFresh (sourceNodes edges) [] []).1
      (enqueueFresh (sourceNodes edges) [] []).2 [] = _
    rw [heq]
    simp
  · intro y
    have := hiff y
    simpa using this

lemma sourceNodes_subset_nodesOf (edges : List (Nat × Nat)) :
    ∀ y ∈ sourceNodes edges, y ∈ nodesOf edges := by
  intro y hy
  unfold sourceNodes at hy
  unfold nodesOf
  exact List.mem_append.mpr (Or.inl (List.mem_of_mem_filter hy))

/-- The `_nodelist` of `breadth_first::init` has no duplicates: the visited
set admits every node at most once. -/
lemma nodelistOf_nodup (edges : List (Nat × Nat)) : (nodelistOf edges).Nodup := by
  obtain ⟨news, heq, hnd, hiff⟩ := nodelistOf_setup edges
  rw [heq]
  exact bfsLoop_nodup edges (bfsFuel edges) news news []
    (by simpa using hnd) (by simp)

/-- A node appears in the `_nodelist` of `breadth_first::init` exactly when
it is reachable from the in-degree-zero source nodes. -/
lemma mem_nodelistOf (edges : List (Nat × Nat)) :
    ∀ x, x ∈ nodelistOf edges ↔ ReachSrc edges x := by
  obtain ⟨news, heq, hnd, hiff⟩ := nodelistOf_setup edges
  have hnewsU : ∀ y ∈ news, y ∈ nodesOf edges := fun y hy =>
    sourceNodes_subset_nodesOf edges y ((hiff y).mp hy)
  have hmeasure : news.length + unreachedCount (nodesOf edges) news ≤ bfsFuel edges := by
    have hcnt := unreachedCount_append (nodesOf edges) [] news hnd
      (fun y hy => hnewsU y hy) (by simp)
    simp only [List.nil_append] at hcnt
    have hcard : unreachedCount (nodesOf edges) [] ≤ (nodesOf edges).length := by
      unfold unreachedCount
      simp only [List.toFinset_nil, Finset.sdiff_empty]
      exact List.toFinset_card_le _
    have hlen : (nodesOf edges).length = 2 * edges.length := by
      unfold nodesOf srcList dstList
      simp [Nat.two_mul]
    unfold bfsFuel
    omega
  obtain ⟨hcomp1, hcomp2⟩ := bfsLoop_complete edges (bfsFuel edges) news news []
    hmeasure (fun y hy => hy) (fun y hy => Or.inr hy) (by simp)
  intro x
  constructor
  · intro hx
    rw [heq] at hx
    refine bfsLoop_sound edges (bfsFuel edges) news news []
      ?_ (fun y hy => hy) (by simp) x hx
    exact fun y hy => ReachSrc.source ((hiff y).mp hy)
  · intro hx
    rw [heq]
    induction hx with
    | source hsrc => exact hcomp1 _ ((hiff _).mpr hsrc)
    | step _ hedge ihx => exact hcomp2 _ _ hedge ihx

/-- C5 (amended).  `breadth_first::init` produces its node list by a
breadth-first traversal of the graph's edges rooted at the source blocks
(in-degree zero), with a visited set, so that — also in cyclic graphs —
every block reachable from a source appears in the list exactly once, and
only those blocks appear. -/
theorem breadth_first_nodelist_exactly_once (edges : List (Nat × Nat)) :
    (nodelistOf edges).Nodup ∧ ∀ x, x ∈ nodelistOf edges ↔ ReachSrc edges x :=
  ⟨nodelistOf_nodup edges, mem_nodelistOf edges⟩

/-- Bounded path search: is there a non-empty edge path of length at most
`fuel` from `a` to `b`? -/
def pathLen (edges : List (Nat × Nat)) : Nat → Nat → Nat → Bool
  | 0, _, _ => false
  | fuel + 1, a, b =>
    (adjOf edges a).contains b || (adjOf edges a).any (fun c => pathLen edges fuel c b)

/-- A graph is cyclic iff some incident node has a non-empty path back to
itself (paths longer than the node count repeat a node). -/
def hasCycle (edges : List (Nat × Nat)) : Bool :=
  (nodesOf edges).any (fun x => pathLen edges (nodesOf edges).length x x)

/-- C5 (counterexample).  The acyclic graph with edges `0→2, 1→2, 1→0` has
in-degree-zero source `1` only; the breadth-first traversal yields the node
list `[1, 2, 0]`, in which the producer `0` of the (acyclic) edge `0→2`
comes *after* its consumer `2` — so the traversal does not guarantee that
producers precede consumers for every acyclic edge. -/
theorem breadth_first_order_counterexample :
    hasCycle [(0, 2), (1, 2), (1, 0)] = false ∧
    (0, 2) ∈ ([(0, 2), (1, 2), (1, 0)] : List (Nat × Nat)) ∧
    nodelistOf [(0, 2), (1, 2), (1, 0)] = [1, 2, 0] ∧
    List.indexOf 2 (nodelistOf [(0, 2), (1, 2), (1, 0)]) <
      List.indexOf 0 (nodelistOf [(0, 2), (1, 2), (1, 0)]) := by
  decide

lemma reachSrc_mem_nodesOf {edges : List (Nat × Nat)} {y : Nat} (h : ReachSrc edges y) :
    y ∈ nodesOf edges := by
  induction h with
  | source hsrc => exact sourceNodes_subset_nodesOf _ _ hsrc
  | step _ hedge _ =>
    unfold nodesOf dstList
    exact List.mem_append.mpr (Or.inr (List.mem_map.mpr ⟨_, hedge, rfl⟩))

lemma mem_everyNthAux :
    ∀ (fuel : Nat) (l : List Nat) (nb y : Nat), y ∈ everyNthAux fuel l nb → y ∈ l := by
  intro fuel
  induction fuel with
  | zero =>
    intro l nb y hy
    simp [everyNthAux] at hy
  | succ fuel ih =>
    intro l nb y hy
    cases l with
    | nil => simp [everyNthAux] at hy
    | cons x xs =>
      rcases List.mem_cons.mp hy with rfl | hy
      · simp
      · exact List.mem_cons_of_mem _ (List.drop_subset _ _ (ih _ _ _ hy))

/-- C10.  `breadth_first::init` derives its source blocks solely from the
graph's edge list, so a block incident to no edge appears neither in the
node list nor in any multi-threaded job list (hence its `work` is never
invoked by the scheduler's passes, which iterate exactly those lists); and
every scheduled block is reachable from an in-degree-zero edge endpoint. -/
theorem breadth_first_unconnected_block_never_scheduled
    (edges : List (Nat × Nat)) (maxThreads b : Nat)
    (hb : ∀ e ∈ edges, e.1 ≠ b ∧ e.2 ≠ b) :
    b ∉ nodelistOf edges ∧
    (∀ job ∈ jobListsOf (nodelistOf edges) maxThreads, b ∉ job) ∧
    (∀ x ∈ nodelistOf edges, ReachSrc edges x) := by
  have hnoreach : ¬ ReachSrc edges b := by
    intro hr
    have hmem : b ∈ nodesOf edges := reachSrc_mem_nodesOf hr
    rcases List.mem_append.mp hmem with h | h
    · obtain ⟨e, he, hfst⟩ := List.mem_map.mp h
      exact (hb e he).1 hfst
    · obtain ⟨e, he, hsnd⟩ := List.mem_map.mp h
      exact (hb e he).2 hsnd
  have hnl : b ∉ nodelistOf edges := fun hmem => hnoreach ((mem_nodelistOf edges b).mp hmem)
  refine ⟨hnl, ?_, fun x hx => (mem_nodelistOf edges x).mp hx⟩
  intro job hjob hbj
  unfold jobListsOf at hjob
  simp only [List.mem_map, List.mem_range] at hjob
  obtain ⟨i, _, hji⟩ := hjob
  subst hji
  exact hnl (List.drop_subset _ _ (mem_everyNthAux _ _ _ _ hbj))

/-- Witness for C10: block `5` has no incident edge in the one-edge graph
`0→1` and is scheduled in no list. -/
theorem breadth_first_unconnected_block_never_scheduled_witness :
    5 ∉ nodelistOf [(0, 1)] ∧ 5 ∉ (jobListsOf (nodelistOf [(0, 1)]) 2).flatten := by
  have h := breadth_first_unconnected_block_never_scheduled [(0, 1)] 2 5 (by decide)
  refine ⟨h.1, fun hmem => ?_⟩
  obtain ⟨job, hj, hbj⟩ := List.mem_flatten.mp hmem
  exact h.2.1 job hj hbj

/-- Modelled from the spec: `CircularBuffer.hpp`/`Sequence.hpp` are not
under src/ (only their test-suite `qa_buffer.cpp` is).  Per §3/§4.3 a buffer
owns one writer cursor (a `Sequence`, initial sentinel −1) and a registry of
consumer cursors; a reader's `available()` is `W − C` and a writer's is
`capacity − (W − min(C))`. -/
structure BufferState where
  capacity : Nat
  cursor : Int
  readers : List Int
deriving DecidableEq, Repr

/-- `gr::detail::getMinimumSequence(set, floor)`: minimum of the consumer
cursors, or `floor` when the set is empty (spec §4.2; exercised at
qa_buffer.cpp lines 124-129). -/
def getMinimumSequence (xs : List Int) (floor : Int) : Int := xs.foldr min floor

/-- `reader.available() = W − C` for the reader registered at index `i`
(spec §3 invariants). -/
def readerAvailable (buf : BufferState) (i : Nat) : Int :=
  buf.cursor - buf.readers.getD i buf.cursor

/-- `writer.available() = capacity − (W − min(C))` (spec §3 invariants,
with the writer cursor as the floor for an empty registry). -/
def writerAvailable (buf : BufferState) : Int :=
  (buf.capacity : Int) - (buf.cursor - getMinimumSequence buf.readers buf.cursor)

/-- Outcome of `publish(fn, n)` / `try_publish(fn, n)`. -/
inductive PublishOutcome where
  | ok
  | threw (msg : String)
  | insufficientCapacity
deriving DecidableEq, Repr

/-- Modelled from the spec: `publish(fn, n)` reserves `n` slots (blocking —
here reported as `insufficientCapacity`, the `try_publish` return `false` —
when fewer than `n` are writable), runs the user callback on the reserved
window, and only then advances the writer cursor by `n`; "exceptions raised
by the user's writer callback during `publish(fn, n)` propagate out and
leave the buffer unchanged (no cursor advance, no partial publish)" (§4.3
failure semantics; exercised at qa_buffer.cpp lines 551-570).  The callback
is abstracted by its outcome. -/
def publishWith (buf : BufferState) (cb : Except String Unit) (n : Nat) :
    BufferState × PublishOutcome :=
  if (n : Int) ≤ writerAvailable buf then
    match cb with
    | .error e => (buf, .threw e)
    | .ok _ => ({ buf with cursor := buf.cursor + n }, .ok)
  else (buf, .insufficientCapacity)

/-- Modelled from the spec: `buffer.new_reader()` constructs a fresh
consumer sequence and registers it; `addSequences` "publishes the new
sequences set to the cursor's current value *before* inserting them (so a
just-joined reader never observes historical slots)" (§4.2, §4.3 reader
registration; exercised at qa_buffer.cpp lines 135-138 and 249-252). -/
def newReader (buf : BufferState) : BufferState :=
  { buf with readers := buf.readers ++ [buf.cursor] }

/-- C6.  If the user callback passed to `publish(fn, n)` (or `try_publish`)
throws, the exception propagates to the caller and the buffer is unchanged:
the writer cursor does not advance and every reader's `available()` is
unchanged; a subsequent `publish(good_fn, 1)` succeeds, after which each
registered reader sees exactly one new sample. -/
theorem circular_buffer_publish_exception_atomic
    (buf : BufferState) (e : String) (n : Nat)
    (hcap : (n : Int) ≤ writerAvailable buf) :
    publishWith buf (.error e) n = (buf, .threw e) ∧
    (∀ i, readerAvailable (publishWith buf (.error e) n).1 i = readerAvailable buf i) ∧
    ((1 : Int) ≤ writerAvailable buf →
      (publishWith buf (.ok ()) 1).2 = .ok ∧
      ∀ i, i < buf.readers.length →
        readerAvailable (publishWith buf (.ok ()) 1).1 i = readerAvailable buf i + 1) := by
  have h1 : publishWith buf (.error e) n = (buf, .threw e) := by
    unfold publishWith
    rw [if_pos hcap]
  refine ⟨h1, fun i => by rw [h1], ?_⟩
  intro hone
  have h2 : publishWith buf (.ok ()) 1 = ({ buf with cursor := buf.cursor + 1 }, .ok) := by
    unfold publishWith
    rw [if_pos (by exact_mod_cast hone)]
    norm_num
  refine ⟨by rw [h2], ?_⟩
  intro i hi
  rw [h2]
  unfold readerAvailable
  simp only
  have hget : ∀ d d', buf.readers.getD i d = buf.readers.getD i d' := by
    intro d d'
    rw [List.getD_eq_getElem?_getD, List.getD_eq_getElem?_getD,
      List.getElem?_eq_getElem hi]
    simp
  rw [hget (buf.cursor + 1) buf.cursor]
  ring

/-- Witness for C6: a capacity-8 buffer with one reader at the sentinel and
cursor 3; a throwing publish of 2 leaves everything unchanged and a good
publish of 1 gives the reader one new sample. -/
theorem circular_buffer_publish_exception_atomic_witness :
    publishWith ⟨8, 3, [3]⟩ (.error "boom") 2 = (⟨8, 3, [3]⟩, .threw "boom") ∧
    readerAvailable (publishWith ⟨8, 3, [3]⟩ (.error "boom") 2).1 0 = 0 ∧
    (publishWith ⟨8, 3, [3]⟩ (.ok ()) 1).2 = PublishOutcome.ok ∧
    readerAvailable (publishWith ⟨8, 3, [3]⟩ (.ok ()) 1).1 0 = 1 := by
  have h := circular_buffer_publish_exception_atomic ⟨8, 3, [3]⟩ "boom" 2 (by decide)
  have h3 := h.2.2 (by decide)
  exact ⟨h.1, by rw [h.2.1 0]; decide, h3.1, by rw [h3.2 0 (by decide)]; decide⟩

/-- C7.  A reader created by `new_reader()` after the writer has already
published any number of samples starts at the current writer cursor: for
every buffer state (i.e. regardless of publication history), the
newly-registered reader's `available()` is 0. -/
theorem circular_buffer_new_reader_sees_nothing (buf : BufferState) :
    readerAvailable (newReader buf) buf.readers.length = 0 := by
  unfold readerAvailable newReader List.getD
  simp

/-- Error kinds of the spec's §7 taxonomy that matter to the buffers. -/
inductive ErrKind where
  | InvalidArgument
  | OutOfRange
  | ResourceExhausted
  | Timeout
deriving DecidableEq, Repr

/-- A constructed history buffer (only its capacity matters to C8). -/
structure HistoryBufferModel where
  capacity : Nat
deriving DecidableEq, Repr

/-- Modelled from the spec: `HistoryBuffer.hpp` is not under src/; its
constructor rejects capacity 0 (spec §4.4), and the test-suite pins the
thrown type: `expect(throws<std::out_of_range>([] { HistoryBuffer<int>(0);
}))` (qa_buffer.cpp line 788), i.e. an out-of-range error, not
`std::invalid_argument`. -/
def historyBufferMk (capacity : Nat) : Except ErrKind HistoryBufferModel :=
  if capacity = 0 then .error ErrKind.OutOfRange else .ok ⟨capacity⟩

/-- C8 (counterexample).  Constructing a `HistoryBuffer` with capacity 0
fails, but with an out-of-range error (`std::out_of_range`, as the
test-suite demands), not with `InvalidArgument` as claimed. -/
theorem history_buffer_zero_capacity_counterexample :
    historyBufferMk 0 = .error ErrKind.OutOfRange ∧
    historyBufferMk 0 ≠ .error ErrKind.InvalidArgument := by
  refine ⟨rfl, fun h => ?_⟩
  simp [historyBufferMk] at h

/-- C8 (amended).  Constructing a `HistoryBuffer` with capacity 0 fails at
construction with an out-of-range error (`std::out_of_range`); every
positive capacity constructs successfully. -/
theorem history_buffer_zero_capacity_out_of_range :
    historyBufferMk 0 = .error ErrKind.OutOfRange ∧
    ∀ c : Nat, c ≠ 0 → historyBufferMk c = .ok ⟨c⟩ := by
  refine ⟨rfl, fun c hc => ?_⟩
  unfold historyBufferMk
  rw [if_neg hc]

/-- Witness for C8's amended theorem: capacity 5 constructs. -/
theorem history_buffer_zero_capacity_out_of_range_witness :
    historyBufferMk 0 = .error ErrKind.OutOfRange ∧ historyBufferMk 5 = .ok ⟨5⟩ := by
  have h := history_buffer_zero_capacity_out_of_range
  exact ⟨h.1, h.2 5 (by decide)⟩

/-- A reflected block field as `BasicSettings::set` sees it (Settings.hpp
lines 362-408): its display name, the index of its type in the `pmtv::pmt`
alternative list, and whether the surrounding constexpr guard
`is_not_any_port_or_collection<Type> && !is_const_v<Type> &&
is_writable(member) && isSupportedType<Type>()` holds. -/
structure FieldDesc where
  name : String
  tyIdx : Nat
  settable : Bool
deriving DecidableEq, Repr

/-- A `pmtv::pmt` value: the index of the alternative it holds, plus an
abstract payload. -/
structure PmtValue where
  tyIdx : Nat
  payload : Nat
deriving DecidableEq, Repr

/-- The mutable state of a `BasicSettings` object that `set` touches:
`_staged`, `_auto_update` and the `_changed` flag. -/
structure SettingsState where
  staged : List (String × PmtValue)
  autoUpdate : List String
  changed : Bool
deriving DecidableEq, Repr

/-- `std::map::insert_or_assign` on an association list. -/
def insertOrAssign (m : List (String × PmtValue)) (k : String) (v : PmtValue) :
    List (String × PmtValue) :=
  match m with
  | [] => [(k, v)]
  | (k', v') :: rest =>
    if k' = k then (k, v) :: rest else (k', v') :: insertOrAssign rest k v

/-- `std::set::erase` of a key. -/
def eraseKey (s : List String) (k : String) : List String :=
  s.filter (fun x => !(decide (x = k)))

/-- Outcome of iterating all reflected members for one `(key, value)` pair
in `BasicSettings::set`: either the `std::invalid_argument` throw (its
formatted message elided), or completion with the final `is_set` flag. -/
inductive SetOutcome where
  | threw
  | done (isSet : Bool)
deriving DecidableEq, Repr

/-- The per-key member iteration of `BasicSettings::set` (Settings.hpp lines
368-391): for each reflected member in order, under the constexpr
settable-guard, a name- and alternative-matching value is staged
(`_auto_update.erase(key)` when present, `_staged.insert_or_assign`,
`_changed = true`, `is_set = true`); a name-matching value holding the wrong
pmt alternative throws `std::invalid_argument`. -/
def setKeyGo : List FieldDesc → String → PmtValue → SettingsState → Bool →
    SettingsState × SetOutcome
  | [], _, _, st, isSet => (st, .done isSet)
  | f :: rest, key, v, st, isSet =>
    if f.settable then
      if f.name = key ∧ v.tyIdx = f.tyIdx then
        setKeyGo rest key v
          { staged := insertOrAssign st.staged key v,
            autoUpdate :=
              if key ∈ st.autoUpdate then eraseKey st.autoUpdate key else st.autoUpdate,
            changed := true } true
      else if f.name = key ∧ v.tyIdx ≠ f.tyIdx then
        (st, .threw)
      else setKeyGo rest key v st isSet
    else setKeyGo rest key v st isSet

/-- The parameter loop of `BasicSettings::set` (Settings.hpp lines 367-395):
process each `(key, value)` pair in order; an un-matched key is added to the
could-not-be-set return map `ret`; a throw propagates out of `set`,
abandoning `ret` but keeping the mutations made so far. -/
def setParamsGo : List (String × PmtValue) → List FieldDesc → SettingsState →
    List (String × PmtValue) → SettingsState × Except Unit (List (String × PmtValue))
  | [], _, st, ret => (st, .ok ret)
  | (k, v) :: rest, fields, st, ret =>
    match setKeyGo fields k v st false with
    | (st', .threw) => (st', .error ())
    | (st', .done isSet) =>
      setParamsGo rest fields st' (if isSet then ret else insertOrAssign ret k v)

/-- `BasicSettings::set(parameters)` for a reflectable block whose reflected
members are `fields` (the final merge of `ret` into the block's
`meta_information`, which does not touch the settings state, is elided). -/
def setParams (fields : List FieldDesc) (params : List (String × PmtValue))
    (st : SettingsState) : SettingsState × Except Unit (List (String × PmtValue)) :=
  setParamsGo params fields st []

lemma setKeyGo_wrong_type (k : String) (v : PmtValue) :
    ∀ (fields : List FieldDesc) (st : SettingsState) (isSet : Bool),
      (∃ f ∈ fields, f.settable = true ∧ f.name = k) →
      (∀ g ∈ fields, g.settable = true → g.name = k → v.tyIdx ≠ g.tyIdx) →
      setKeyGo fields k v st isSet = (st, .threw) := by
  intro fields
  induction fields with
  | nil =>
    rintro st isSet ⟨f, hf, _⟩ _
    simp at hf
  | cons f rest ih =>
    rintro st isSet ⟨f', hf', hset', hname'⟩ hwrong
    by_cases hfs : f.settable = true
    · by_cases hfn : f.name = k
      · have hty : v.tyIdx ≠ f.tyIdx := hwrong f (by simp) hfs hfn
        unfold setKeyGo
        rw [if_pos hfs, if_neg (by tauto), if_pos ⟨hfn, hty⟩]
      · have hrest : f' ∈ rest := by
          rcases List.mem_cons.mp hf' with rfl | h
          · exact absurd hname' hfn
          · exact h
        unfold setKeyGo
        rw [if_pos hfs, if_neg (by tauto), if_neg (by tauto)]
        exact ih st isSet ⟨f', hrest, hset', hname'⟩
          (fun g hg => hwrong g (List.mem_cons_of_mem _ hg))
    · have hrest : f' ∈ rest := by
        rcases List.mem_cons.mp hf' with rfl | h
        · exact absurd hset' hfs
        · exact h
      unfold setKeyGo
      rw [if_neg hfs]
      exact ih st isSet ⟨f', hrest, hset', hname'⟩
        (fun g hg => hwrong g (List.mem_cons_of_mem _ hg))

/-- C9.  For a reflectable block, `BasicSettings::set({key: value})` where
`key` names a writable supported-type field but `value` holds the wrong pmt
alternative throws `std::invalid_argument` instead of returning the key in
the could-not-be-set map; the key is not staged and the settings state —
staged map included — is unchanged. -/
theorem basic_settings_set_wrong_type_throws
    (fields : List FieldDesc) (k : String) (v : PmtValue) (st : SettingsState)
    (hexists : ∃ f ∈ fields, f.settable = true ∧ f.name = k)
    (hwrong : ∀ g ∈ fields, g.settable = true → g.name = k → v.tyIdx ≠ g.tyIdx) :
    setParams fields [(k, v)] st = (st, .error ()) := by
  unfold setParams setParamsGo
  rw [setKeyGo_wrong_type k v fields st false hexists hwrong]

/-- Witness for C9: a single writable field `rate` of alternative 3 and a
value holding alternative 1 — `set` throws and the state is untouched. -/
theorem basic_settings_set_wrong_type_throws_witness :
    setParams [⟨"rate", 3, true⟩] [("rate", ⟨1, 42⟩)] ⟨[], ["rate"], false⟩ =
      (⟨[], ["rate"], false⟩, .error ()) :=
  basic_settings_set_wrong_type_throws [⟨"rate", 3, true⟩] "rate" ⟨1, 42⟩
    ⟨[], ["rate"], false⟩ ⟨⟨"rate", 3, true⟩, by simp, rfl, rfl⟩ (by decide)

end GraphProto
